import Mathlib

/-!
Shallow embedding of the PortManager daemon core
(crates/daemon/src/main.rs and crates/daemon/src/db.rs, with the Lease
record from crates/common/src/lib.rs).

Modelling conventions:
* Timestamps (`chrono::DateTime<Utc>`) are `Int` (seconds); chrono duration
  arithmetic `last_heartbeat + Duration::seconds(ttl as i64)` becomes
  `last_heartbeat + (ttl : Int)`.
* The in-memory `HashMap<u16, Lease>` and the SQLite `leases` table (with
  `port INTEGER PRIMARY KEY`) are both modelled as association lists
  `List (Nat × Lease)` keyed by port, with HashMap-extensional insert,
  remove, lookup and in-place update operations.
* Each axum handler takes the `AppState` and returns the result paired with
  the post state (the Rust code mutates the state behind locks; a handler
  call is one serialized mutation).
* The fallibility of `db::save_lease` (rusqlite `Result`) is an explicit
  `saveOk : Bool` input to `allocate_port`, covering both branches of the
  `if let Err(e) = db::save_lease(..)` test in main.rs.
-/

namespace PortManager

/-- The `Lease` record of crates/common/src/lib.rs. -/
structure Lease where
  port : Nat
  service_name : String
  allocated_at : Int
  last_heartbeat : Int
  ttl_seconds : Nat
  tags : List String
deriving DecidableEq, Repr

/-- main.rs line 24: `const DEFAULT_TTL: u64 = 300`. -/
def DEFAULT_TTL : Nat := 300

/-- Association-list model of both the in-memory `HashMap<u16, Lease>` and
the SQLite `leases` table keyed by `port`. -/
abbrev Table := List (Nat × Lease)

namespace Table

/-- HashMap `contains_key` / SQL row-exists, on the association list. -/
def containsKey (t : Table) (p : Nat) : Bool :=
  t.any (fun e => e.1 == p)

/-- HashMap `get`: the value stored at key `p`, if present. -/
def getVal (t : Table) (p : Nat) : Option Lease :=
  (t.find? (fun e => e.1 == p)).map (fun e => e.2)

/-- HashMap `remove` / SQL `DELETE ... WHERE port = p`. -/
def remove (t : Table) (p : Nat) : Table :=
  t.filter (fun e => e.1 != p)

/-- HashMap `insert` / SQL `INSERT OR REPLACE`: key `p` now maps to `l`,
all other keys unchanged. -/
def insert (t : Table) (p : Nat) (l : Lease) : Table :=
  (p, l) :: t.remove p

/-- HashMap `values()`: the stored leases. -/
def values (t : Table) : List Lease :=
  t.map (fun e => e.2)

/-- The keys of the association list. -/
def keys (t : Table) : List Nat :=
  t.map (fun e => e.1)

/-- In-place update of `last_heartbeat` at key `p` (main.rs `get_mut` +
assignment; db.rs `UPDATE leases SET last_heartbeat = ?1 WHERE port = ?2`). -/
def setHB (t : Table) (p : Nat) (now : Int) : Table :=
  t.map (fun e => if e.1 == p then (e.1, { e.2 with last_heartbeat := now }) else e)

/-- Well-formedness the Rust representations give for free: a `HashMap`
has no duplicate keys, and every stored lease records its own key as its
`port` field (both `allocate_port` and `load_leases` insert at
`lease.port`). -/
def WF (t : Table) : Prop :=
  (keys t).Nodup ∧ ∀ e ∈ t, e.2.port = e.1

instance (t : Table) : Decidable (WF t) := by
  unfold WF; infer_instance

end Table

/-- Derived value from the expiry rule: `expiresAt = lastHeartbeat +
ttlSeconds` (computed inline in main.rs line 99 and db.rs line 126). -/
def Lease.expiresAt (l : Lease) : Int :=
  l.last_heartbeat + (l.ttl_seconds : Int)

/-- The expiry rule `now > expires_at` (main.rs line 100, db.rs line 128). -/
def Lease.expired (l : Lease) (now : Int) : Bool :=
  now > l.expiresAt

/-! ### db.rs store operations (over well-typed rows) -/

/-- db.rs `save_lease`: `INSERT OR REPLACE INTO leases ... VALUES (port, ...)`. -/
def save_lease (db : Table) (l : Lease) : Table :=
  Table.insert db l.port l

/-- db.rs `delete_lease`: `DELETE FROM leases WHERE port = ?1`, returning
whether a row was deleted (`rows > 0`). -/
def delete_lease (db : Table) (p : Nat) : Table × Bool :=
  (Table.remove db p, Table.containsKey db p)

/-- db.rs `update_heartbeat`: `UPDATE leases SET last_heartbeat = ?1 WHERE
port = ?2`, returning whether a row matched. -/
def update_heartbeat (db : Table) (p : Nat) (ts : Int) : Table × Bool :=
  (Table.setHB db p ts, Table.containsKey db p)

/-- db.rs `delete_expired`: select every row with `now > last_heartbeat +
ttl_seconds`, delete those rows, and return the list of deleted ports.
(Over well-typed rows; timestamps parse, so the `unwrap_or_else(|_| now)`
fallback does not fire. Raw rows are modelled separately below.) -/
def delete_expired (db : Table) (now : Int) : List Nat × Table :=
  let expired := (db.filter (fun e => Lease.expired e.2 now)).map (fun e => e.1)
  (expired, expired.foldl (fun d p => Table.remove d p) db)

/-! ### main.rs request types, state and handlers -/

/-- The `AllocateRequest` body from crates/common/src/lib.rs. -/
structure AllocateRequest where
  service_name : String
  ttl_seconds : Option Nat
  tags : Option (List String)
deriving DecidableEq, Repr

/-- The `AllocateResponse` body from crates/common/src/lib.rs. -/
structure AllocateResponse where
  port : Nat
  lease : Lease
deriving DecidableEq, Repr

/-- The HTTP status codes the handlers produce. -/
inductive Status where
  | ok
  | notFound
  | internalServerError
  | serviceUnavailable
deriving DecidableEq, Repr

/-- The `AppState` of main.rs (the `Arc`/lock wrappers drop out; a handler call
holds the locks for its whole body, see the concurrency note in the spec). -/
structure AppState where
  leases : Table
  db : Table
  min_port : Nat
  max_port : Nat
deriving DecidableEq, Repr

/-- The port-scanning loop of `allocate_port` (main.rs lines 179-185):
starting at `p` with `fuel` ports left to try, return the first port not
present as a key, or `none` when the loop runs out. -/
def scanPorts (leases : Table) : Nat → Nat → Option Nat
  | _, 0 => none
  | p, fuel + 1 =>
    if Table.containsKey leases p then scanPorts leases (p + 1) fuel else some p

/-- The loop header `for port in state.min_port..=state.max_port`:
the `mn..=mx` loop visits `mx + 1 - mn` ports starting at `mn`. -/
def findFreePort (leases : Table) (mn mx : Nat) : Option Nat :=
  scanPorts leases mn (mx + 1 - mn)

/-- main.rs `allocate_port` (lines 172-214). `saveOk` is whether
`db::save_lease` succeeds; on failure the handler returns 500 before the
in-memory insert, so the state is unchanged. -/
def allocate_port (st : AppState) (payload : AllocateRequest) (now : Int)
    (saveOk : Bool) : Except Status AllocateResponse × AppState :=
  match findFreePort st.leases st.min_port st.max_port with
  | some port =>
    let lease : Lease :=
      { port := port
        service_name := payload.service_name
        allocated_at := now
        last_heartbeat := now
        ttl_seconds := payload.ttl_seconds.getD DEFAULT_TTL
        tags := payload.tags.getD [] }
    if saveOk then
      (Except.ok { port := port, lease := lease },
       { st with
         db := save_lease st.db lease
         leases := Table.insert st.leases port lease })
    else
      (Except.error Status.internalServerError, st)
  | none => (Except.error Status.serviceUnavailable, st)

/-- main.rs `release_port` (lines 216-230): remove from the table; if a
lease was present, also delete from the store (result ignored) and return
200, else 404 with nothing touched. -/
def release_port (st : AppState) (port : Nat) : Except Status Status × AppState :=
  if Table.containsKey st.leases port then
    (Except.ok Status.ok,
     { st with
       leases := Table.remove st.leases port
       db := (delete_lease st.db port).1 })
  else
    (Except.error Status.notFound, st)

/-- main.rs `heartbeat` (lines 232-250): if the port is present, set its
`last_heartbeat` to `now` in the table and run the store update (result
ignored); else 404 without touching the store. -/
def heartbeat (st : AppState) (port : Nat) (now : Int) :
    Except Status Status × AppState :=
  match Table.getVal st.leases port with
  | some _ =>
    (Except.ok Status.ok,
     { st with
       leases := Table.setHB st.leases port now
       db := (update_heartbeat st.db port now).1 })
  | none => (Except.error Status.notFound, st)

/-- main.rs `list_leases` (lines 252-257): snapshot of all lease values. -/
def list_leases (st : AppState) : List Lease :=
  Table.values st.leases

/-- One tick of the background cleaner (main.rs lines 87-118): collect the
ports whose lease satisfies `now > last_heartbeat + ttl_seconds`, then
remove each from the table and delete it from the store. -/
def sweep (st : AppState) (now : Int) : AppState :=
  let expired := (st.leases.filter (fun e => Lease.expired e.2 now)).map (fun e => e.1)
  { st with
    leases := expired.foldl (fun t p => Table.remove t p) st.leases
    db := expired.foldl (fun d p => (delete_lease d p).1) st.db }

/-- The db.rs `load_leases` restricted to well-typed rows: each row becomes a map
entry keyed at `lease.port` (db.rs line 71: `map.insert(lease.port, lease)`).
Raw, possibly malformed rows are modelled separately below. -/
def loadTable (db : Table) : Table :=
  db.foldl (fun m e => Table.insert m e.2.port e.2) []

/-- Startup (main.rs lines 48-83): load all leases from the store into the
in-memory map, then run `db::delete_expired(&conn, now)` against the store.
The returned expired-port list is only counted for a log line; the
in-memory map keeps whatever `load_leases` produced. -/
def startup (db : Table) (now : Int) (mn mx : Nat) : AppState :=
  let existing := loadTable db
  let cleaned := (delete_expired db now).2
  { leases := existing, db := cleaned, min_port := mn, max_port := mx }

/-- The mutating operations a client or the sweeper can drive the daemon
through (each carries the wall-clock time and, for allocation, whether the
store write succeeds). -/
inductive Op where
  | alloc (payload : AllocateRequest) (now : Int) (saveOk : Bool)
  | release (port : Nat)
  | renew (port : Nat) (now : Int)
  | sweepAt (now : Int)
deriving DecidableEq, Repr

/-- Apply one operation to the state (the handler's post state). -/
def step (st : AppState) : Op → AppState
  | Op.alloc payload now saveOk => (allocate_port st payload now saveOk).2
  | Op.release port => (release_port st port).2
  | Op.renew port now => (heartbeat st port now).2
  | Op.sweepAt now => sweep st now

/-- Run a sequence of operations. -/
def run (st : AppState) (ops : List Op) : AppState :=
  ops.foldl step st

/-! ### Raw store rows and lenient loading (db.rs `load_leases`,
`delete_expired` over possibly malformed rows)

A stored SQLite row is characterized by the results of reading each column:
the stored integer columns as they read under rusqlite (`port` as `u16`,
`ttl_seconds` as a signed 64-bit integer), and the text columns. RFC 3339
parsing and JSON tag parsing are abstract functions supplied as parameters;
a row field is `none` when the corresponding `row.get(i)?` fails. -/

/-- One raw row of the `leases` table as db.rs reads it. -/
structure RawRow where
  port : Option Nat
  service_name : Option String
  allocated_at_str : Option String
  last_heartbeat_str : Option String
  ttl_i64 : Option Int
  tags_json : Option String
deriving DecidableEq, Repr

/-- Reading a stored integer column as `u64` (db.rs line 47): succeeds
exactly when the signed read succeeds and the value is nonnegative. -/
def readU64 (v : Option Int) : Option Nat :=
  v.bind (fun n => if 0 ≤ n then some n.toNat else none)

/-- The `query_map` closure of `load_leases` (db.rs lines 42-66): all six
column reads must succeed (`?`); the two timestamps fall back to `now` when
RFC 3339 parsing fails, and the tag list falls back to `[]` when JSON
parsing fails. -/
def parseRow (parseTs : String → Option Int)
    (parseTags : String → Option (List String)) (now : Int) (r : RawRow) :
    Option Lease :=
  match r.port, r.service_name, r.allocated_at_str, r.last_heartbeat_str,
      readU64 r.ttl_i64, r.tags_json with
  | some port, some sn, some a, some h, some ttl, some tj =>
    some { port := port
           service_name := sn
           allocated_at := (parseTs a).getD now
           last_heartbeat := (parseTs h).getD now
           ttl_seconds := ttl
           tags := (parseTags tj).getD [] }
  | _, _, _, _, _, _ => none

/-- db.rs `load_leases` (lines 39-75): each row that reads successfully is
inserted at `lease.port`; a row whose reads fail is skipped by the
`if let Ok(lease) = lease_result` loop. The whole load never fails because
of a malformed row. -/
def load_leases (parseTs : String → Option Int)
    (parseTags : String → Option (List String)) (now : Int)
    (rows : List RawRow) : Table :=
  rows.foldl
    (fun m r =>
      match parseRow parseTs parseTags now r with
      | some l => Table.insert m l.port l
      | none => m)
    []

/-- The `query_map` closure of `delete_expired` (db.rs lines 117-129):
reads `port`, `last_heartbeat` and `ttl_seconds` (as i64), parses the
heartbeat with fallback `now`, and reports whether `now > last_heartbeat +
ttl_seconds`. -/
def rowExpiry (parseTs : String → Option Int) (now : Int) (r : RawRow) :
    Option (Nat × Bool) :=
  match r.port, r.last_heartbeat_str, r.ttl_i64 with
  | some p, some h, some ttl =>
    some (p, decide (now > (parseTs h).getD now + ttl))
  | _, _, _ => none

/-- db.rs `delete_expired` over raw rows: the ports it deletes (rows whose
reads fail are dropped by `filter_map(|r| r.ok())`). -/
def delete_expired_ports (parseTs : String → Option Int) (now : Int)
    (rows : List RawRow) : List Nat :=
  (((rows.filterMap (rowExpiry parseTs now)).filter (fun x => x.2)).map
    (fun x => x.1))

/-- Specification-side measure: how many ports of the configured range
`[mn, mx]` are present as keys. -/
def occCount (t : Table) (mn mx : Nat) : Nat :=
  ((List.range' mn (mx + 1 - mn)).filter (fun p => Table.containsKey t p)).length

/-- Iterated allocation with a reliable store (used to state the
range-exhaustion scenario). -/
def allocRun (st : AppState) (reqs : List AllocateRequest) (now : Int) : AppState :=
  reqs.foldl (fun s payload => (allocate_port s payload now true).2) st

/-! ### Concrete fixtures for closed instantiations -/

/-- An empty daemon state over the range 8000-8002. -/
def emptyState : AppState := ⟨[], [], 8000, 8002⟩

/-- A lease that is still fresh at time 1000 (heartbeat 900, TTL 300). -/
def leaseA : Lease := ⟨8000, "svc-a", 0, 900, 300, []⟩

/-- A lease that is already expired at time 1000 (heartbeat 100, TTL 300). -/
def leaseB : Lease := ⟨8001, "svc-b", 0, 100, 300, []⟩

/-- A store holding `leaseA` and `leaseB`. -/
def dbAB : Table := [(8000, leaseA), (8001, leaseB)]

/-- A running state whose table and store both hold `leaseA` and `leaseB`. -/
def stAB : AppState := ⟨dbAB, dbAB, 8000, 9000⟩

/-! ### Association-list lemmas -/

theorem beq_false_of_ne {a b : Nat} (h : a ≠ b) : (a == b) = false := by
  rw [Bool.eq_false_iff]
  simpa using h

namespace Table

theorem getVal_cons_self (e : Nat × Lease) (t : Table) (q : Nat) (h : e.1 = q) :
    getVal (e :: t) q = some e.2 := by
  simp [getVal, List.find?_cons_of_pos, h]

theorem getVal_cons_ne (e : Nat × Lease) (t : Table) (q : Nat) (h : e.1 ≠ q) :
    getVal (e :: t) q = getVal t q := by
  simp [getVal, List.find?_cons_of_neg, beq_false_of_ne h]

theorem containsKey_cons (e : Nat × Lease) (t : Table) (q : Nat) :
    containsKey (e :: t) q = ((e.1 == q) || containsKey t q) := by
  simp [containsKey, List.any_cons]

theorem remove_cons_self {e : Nat × Lease} {t : Table} {p : Nat} (h : e.1 = p) :
    remove (e :: t) p = remove t p := by
  simp [remove, List.filter_cons, h]

theorem remove_cons_ne {e : Nat × Lease} {t : Table} {p : Nat} (h : e.1 ≠ p) :
    remove (e :: t) p = e :: remove t p := by
  simp [remove, List.filter_cons, h]

theorem setHB_cons_self {e : Nat × Lease} {t : Table} {p : Nat} {now : Int}
    (h : e.1 = p) :
    setHB (e :: t) p now =
      (e.1, { e.2 with last_heartbeat := now }) :: setHB t p now := by
  simp only [setHB, List.map_cons]
  rw [if_pos (by simpa using h)]

theorem setHB_cons_ne {e : Nat × Lease} {t : Table} {p : Nat} {now : Int}
    (h : e.1 ≠ p) : setHB (e :: t) p now = e :: setHB t p now := by
  simp only [setHB, List.map_cons]
  rw [if_neg (by simpa using h)]

theorem containsKey_iff {t : Table} {p : Nat} :
    containsKey t p = true ↔ ∃ e ∈ t, e.1 = p := by
  simp [containsKey, List.any_eq_true]

theorem containsKey_eq_false_iff {t : Table} {p : Nat} :
    containsKey t p = false ↔ ∀ e ∈ t, e.1 ≠ p := by
  rw [← Bool.not_eq_true, containsKey_iff]
  constructor
  · intro h e he hp
    exact h ⟨e, he, hp⟩
  · rintro h ⟨e, he, hp⟩
    exact h e he hp

theorem containsKey_remove_self (t : Table) (p : Nat) :
    containsKey (remove t p) p = false := by
  rw [containsKey_eq_false_iff]
  intro e he
  have := (List.mem_filter.mp he).2
  simpa using this

theorem containsKey_remove_ne (t : Table) (p q : Nat) (h : q ≠ p) :
    containsKey (remove t p) q = containsKey t q := by
  rw [Bool.eq_iff_iff, containsKey_iff, containsKey_iff]
  constructor
  · rintro ⟨e, he, hq⟩
    exact ⟨e, (List.mem_filter.mp he).1, hq⟩
  · rintro ⟨e, he, hq⟩
    refine ⟨e, List.mem_filter.mpr ⟨he, ?_⟩, hq⟩
    have : e.1 ≠ p := by rw [hq]; exact h
    simpa using this

theorem getVal_remove_ne (t : Table) (p q : Nat) (h : q ≠ p) :
    getVal (remove t p) q = getVal t q := by
  induction t with
  | nil => rfl
  | cons e rest ih =>
    by_cases hep : e.1 = p
    · have heq : e.1 ≠ q := by rw [hep]; exact fun hh => h hh.symm
      rw [remove_cons_self hep, getVal_cons_ne e rest q heq]
      exact ih
    · rw [remove_cons_ne hep]
      by_cases heq : e.1 = q
      · rw [getVal_cons_self e (remove rest p) q heq, getVal_cons_self e rest q heq]
      · rw [getVal_cons_ne e (remove rest p) q heq, getVal_cons_ne e rest q heq]
        exact ih

theorem getVal_insert_self (t : Table) (p : Nat) (l : Lease) :
    getVal (insert t p l) p = some l :=
  getVal_cons_self (p, l) (remove t p) p rfl

theorem getVal_insert_ne (t : Table) (p : Nat) (l : Lease) (q : Nat) (h : q ≠ p) :
    getVal (insert t p l) q = getVal t q :=
  (getVal_cons_ne (p, l) (remove t p) q (fun hh => h hh.symm)).trans
    (getVal_remove_ne t p q h)

theorem containsKey_insert_self (t : Table) (p : Nat) (l : Lease) :
    containsKey (insert t p l) p = true := by
  have h1 := containsKey_cons (p, l) (remove t p) p
  simpa using h1

theorem containsKey_insert_ne (t : Table) (p : Nat) (l : Lease) (q : Nat)
    (h : q ≠ p) : containsKey (insert t p l) q = containsKey t q := by
  have h1 : containsKey (insert t p l) q = ((p == q) || containsKey (remove t p) q) :=
    containsKey_cons (p, l) (remove t p) q
  rw [h1, beq_false_of_ne (fun hh => h hh.symm), Bool.false_or]
  exact containsKey_remove_ne t p q h

theorem getVal_setHB_ne (t : Table) (p : Nat) (now : Int) (q : Nat) (h : q ≠ p) :
    getVal (setHB t p now) q = getVal t q := by
  induction t with
  | nil => rfl
  | cons e rest ih =>
    by_cases hep : e.1 = p
    · have heq : e.1 ≠ q := by rw [hep]; exact fun hh => h hh.symm
      rw [setHB_cons_self hep,
        getVal_cons_ne (e.1, { e.2 with last_heartbeat := now }) (setHB rest p now) q heq,
        getVal_cons_ne e rest q heq]
      exact ih
    · rw [setHB_cons_ne hep]
      by_cases heq : e.1 = q
      · rw [getVal_cons_self e (setHB rest p now) q heq, getVal_cons_self e rest q heq]
      · rw [getVal_cons_ne e (setHB rest p now) q heq, getVal_cons_ne e rest q heq]
        exact ih

theorem getVal_setHB_self (t : Table) (p : Nat) (now : Int) (l : Lease)
    (h : getVal t p = some l) :
    getVal (setHB t p now) p = some { l with last_heartbeat := now } := by
  induction t with
  | nil => simp [getVal] at h
  | cons e rest ih =>
    by_cases hep : e.1 = p
    · have h2 : e.2 = l := by
        rw [getVal_cons_self e rest p hep] at h
        exact Option.some_injective _ h
      rw [setHB_cons_self hep,
        getVal_cons_self (e.1, { e.2 with last_heartbeat := now }) (setHB rest p now) p hep,
        h2]
    · rw [getVal_cons_ne e rest p hep] at h
      rw [setHB_cons_ne hep, getVal_cons_ne e (setHB rest p now) p hep]
      exact ih h

theorem containsKey_setHB (t : Table) (p : Nat) (now : Int) (q : Nat) :
    containsKey (setHB t p now) q = containsKey t q := by
  induction t with
  | nil => rfl
  | cons e rest ih =>
    by_cases hep : e.1 = p
    · rw [setHB_cons_self hep, containsKey_cons, containsKey_cons, ih]
    · rw [setHB_cons_ne hep, containsKey_cons, containsKey_cons, ih]

theorem mem_of_getVal {t : Table} {p : Nat} {l : Lease}
    (h : getVal t p = some l) : (p, l) ∈ t := by
  unfold getVal at h
  cases hf : t.find? (fun e => e.1 == p) with
  | none => rw [hf] at h; cases h
  | some e =>
    have hm := List.mem_of_find?_eq_some hf
    rw [hf] at h
    have h2 : e.2 = l := by simpa using h
    have h1 : e.1 = p := by
      have := List.find?_some hf
      simpa using this
    have he : e = (p, l) := by
      cases e
      simp_all
    rwa [he] at hm

theorem getVal_eq_some_of_mem {t : Table} (hnd : (keys t).Nodup) {p : Nat}
    {l : Lease} (h : (p, l) ∈ t) : getVal t p = some l := by
  induction t with
  | nil => cases h
  | cons e rest ih =>
    have hnd0 : e.1 ∉ List.map (fun x => x.1) rest ∧
        (List.map (fun x => x.1) rest).Nodup := by
      simpa only [keys, List.map_cons, List.nodup_cons] using hnd
    rcases List.mem_cons.mp h with he | hrest
    · rw [← he]
      exact getVal_cons_self (p, l) rest p rfl
    · have hk : p ∈ List.map (fun x => x.1) rest :=
        List.mem_map.mpr ⟨(p, l), hrest, rfl⟩
      have hne : e.1 ≠ p := fun hc => hnd0.1 (hc ▸ hk)
      rw [getVal_cons_ne e rest p hne]
      exact ih hnd0.2 hrest

theorem containsKey_of_getVal_eq_some {t : Table} {p : Nat} {l : Lease}
    (h : getVal t p = some l) : containsKey t p = true :=
  containsKey_iff.mpr ⟨(p, l), mem_of_getVal h, rfl⟩

theorem getVal_isSome_of_containsKey {t : Table} {p : Nat}
    (h : containsKey t p = true) : ∃ l, getVal t p = some l := by
  obtain ⟨e, he, hp⟩ := containsKey_iff.mp h
  unfold getVal
  cases hf : t.find? (fun x => x.1 == p) with
  | none =>
    have := List.find?_eq_none.mp hf e he
    simp [hp] at this
  | some x => exact ⟨x.2, rfl⟩

theorem eq_of_mem_of_nodup {t : Table} (hnd : (keys t).Nodup) {p : Nat}
    {l1 l2 : Lease} (h1 : (p, l1) ∈ t) (h2 : (p, l2) ∈ t) : l1 = l2 := by
  have e1 := getVal_eq_some_of_mem hnd h1
  have e2 := getVal_eq_some_of_mem hnd h2
  rw [e1] at e2
  exact Option.some_injective _ e2

theorem keys_remove_sublist (t : Table) (p : Nat) :
    (keys (remove t p)).Sublist (keys t) := by
  show (List.map (fun e => e.1) (List.filter (fun e => e.1 != p) t)).Sublist
    (List.map (fun e => e.1) t)
  exact List.Sublist.map (fun e => e.1) (List.filter_sublist t)

theorem not_mem_keys_remove (t : Table) (p : Nat) : p ∉ keys (remove t p) := by
  intro hmem
  obtain ⟨e, he, hp⟩ := List.mem_map.mp hmem
  have hf := (List.mem_filter.mp he).2
  simp [hp] at hf

theorem WF_remove (t : Table) (p : Nat) (h : WF t) : WF (remove t p) := by
  constructor
  · exact List.Nodup.sublist (keys_remove_sublist t p) h.1
  · exact fun e he => h.2 e (List.mem_of_mem_filter he)

theorem keys_insert (t : Table) (p : Nat) (l : Lease) :
    keys (insert t p l) = p :: keys (remove t p) := rfl

theorem WF_insert (t : Table) (p : Nat) (l : Lease) (h : WF t) (hl : l.port = p) :
    WF (insert t p l) := by
  constructor
  · rw [keys_insert]
    exact List.nodup_cons.mpr ⟨not_mem_keys_remove t p, (WF_remove t p h).1⟩
  · intro e he
    rcases List.mem_cons.mp he with rfl | he'
    · exact hl
    · exact (WF_remove t p h).2 e he'

theorem keys_setHB (t : Table) (p : Nat) (now : Int) :
    keys (setHB t p now) = keys t := by
  induction t with
  | nil => rfl
  | cons e rest ih =>
    by_cases hep : e.1 = p
    · rw [setHB_cons_self hep]
      show e.1 :: keys (setHB rest p now) = e.1 :: keys rest
      rw [ih]
    · rw [setHB_cons_ne hep]
      show e.1 :: keys (setHB rest p now) = e.1 :: keys rest
      rw [ih]

theorem WF_setHB (t : Table) (p : Nat) (now : Int) (h : WF t) :
    WF (setHB t p now) := by
  constructor
  · rw [keys_setHB]
    exact h.1
  · intro e he
    obtain ⟨a, ha, rfl⟩ := List.mem_map.mp he
    by_cases hap : a.1 = p
    · rw [if_pos (by simpa using hap)]
      show a.2.port = a.1
      exact h.2 a ha
    · rw [if_neg (by simpa using hap)]
      exact h.2 a ha

theorem WF_tail {e : Nat × Lease} {t : Table} (h : WF (e :: t)) : WF t := by
  constructor
  · exact (List.nodup_cons.mp h.1).2
  · exact fun x hx => h.2 x (List.mem_cons_of_mem e hx)

theorem containsKey_remove_false (t : Table) (p q : Nat)
    (h : containsKey t q = false) : containsKey (remove t p) q = false := by
  by_cases hqp : q = p
  · rw [hqp]
    exact containsKey_remove_self t p
  · rw [containsKey_remove_ne t p q hqp]
    exact h

theorem containsKey_foldl_remove_false (ps : List Nat) (q : Nat) :
    ∀ t : Table, containsKey t q = false →
      containsKey (ps.foldl (fun t p => remove t p) t) q = false := by
  induction ps with
  | nil => exact fun t h => h
  | cons p rest ih =>
    exact fun t h => ih (remove t p) (containsKey_remove_false t p q h)

theorem containsKey_foldl_remove_of_mem (ps : List Nat) (q : Nat) (h : q ∈ ps) :
    ∀ t : Table, containsKey (ps.foldl (fun t p => remove t p) t) q = false := by
  induction ps with
  | nil => cases h
  | cons p rest ih =>
    intro t
    rcases List.mem_cons.mp h with rfl | h'
    · exact containsKey_foldl_remove_false rest q (remove t q)
        (containsKey_remove_self t q)
    · exact ih h' (remove t p)

theorem getVal_foldl_remove_of_not_mem (ps : List Nat) (q : Nat) (h : q ∉ ps) :
    ∀ t : Table, getVal (ps.foldl (fun t p => remove t p) t) q = getVal t q := by
  induction ps with
  | nil => exact fun t => rfl
  | cons p rest ih =>
    intro t
    have hne : q ≠ p := fun hc => h (hc ▸ List.mem_cons_self p rest)
    have h' : q ∉ rest := fun hc => h (List.mem_cons_of_mem p hc)
    exact (ih h' (remove t p)).trans (getVal_remove_ne t p q hne)

theorem containsKey_foldl_remove_of_not_mem (ps : List Nat) (q : Nat) (h : q ∉ ps) :
    ∀ t : Table, containsKey (ps.foldl (fun t p => remove t p) t) q =
      containsKey t q := by
  induction ps with
  | nil => exact fun t => rfl
  | cons p rest ih =>
    intro t
    have hne : q ≠ p := fun hc => h (hc ▸ List.mem_cons_self p rest)
    have h' : q ∉ rest := fun hc => h (List.mem_cons_of_mem p hc)
    exact (ih h' (remove t p)).trans (containsKey_remove_ne t p q hne)

theorem WF_foldl_remove (ps : List Nat) :
    ∀ t : Table, WF t → WF (ps.foldl (fun t p => remove t p) t) := by
  induction ps with
  | nil => exact fun t h => h
  | cons p rest ih =>
    exact fun t h => ih (remove t p) (WF_remove t p h)

end Table

/-! ### Lemmas about the expired-port scan, loading, and the port scan -/

theorem mem_expired_map (db : Table) (now : Int) (p : Nat) :
    p ∈ (db.filter (fun e => Lease.expired e.2 now)).map (fun e => e.1) ↔
      ∃ l, (p, l) ∈ db ∧ Lease.expired l now = true := by
  constructor
  · intro h
    obtain ⟨e, he, hp⟩ := List.mem_map.mp h
    obtain ⟨hmem, hexp⟩ := List.mem_filter.mp he
    refine ⟨e.2, ?_, hexp⟩
    have hpe : e = (p, e.2) := by
      cases e
      simp_all
    rwa [← hpe]
  · rintro ⟨l, hmem, hexp⟩
    exact List.mem_map.mpr ⟨(p, l), List.mem_filter.mpr ⟨hmem, hexp⟩, rfl⟩

theorem getVal_foldl_insert_of_not_key (p : Nat) :
    ∀ db : List (Nat × Lease), (∀ e ∈ db, e.2.port ≠ p) →
      ∀ acc : Table,
        Table.getVal (db.foldl (fun m e => Table.insert m e.2.port e.2) acc) p =
          Table.getVal acc p := by
  intro db
  induction db with
  | nil => exact fun _ acc => rfl
  | cons e rest ih =>
    intro hk acc
    have h1 : e.2.port ≠ p := hk e (List.mem_cons_self e rest)
    have h2 : ∀ x ∈ rest, x.2.port ≠ p := fun x hx => hk x (List.mem_cons_of_mem e hx)
    exact (ih h2 (Table.insert acc e.2.port e.2)).trans
      (Table.getVal_insert_ne acc e.2.port e.2 p (fun hh => h1 hh.symm))

theorem getVal_foldl_insert_of_mem {p : Nat} {l : Lease} :
    ∀ db : Table, Table.WF db → (p, l) ∈ db →
      ∀ acc : Table,
        Table.getVal (db.foldl (fun m e => Table.insert m e.2.port e.2) acc) p =
          some l := by
  intro db
  induction db with
  | nil => intro _ h; cases h
  | cons e rest ih =>
    intro hWF hmem acc
    have hkeys : e.1 ∉ Table.keys rest ∧ (Table.keys rest).Nodup := by
      have h1 := hWF.1
      rw [show Table.keys (e :: rest) = e.1 :: Table.keys rest from rfl,
        List.nodup_cons] at h1
      exact h1
    rcases List.mem_cons.mp hmem with he | hrest
    · have hport : e.2.port = e.1 := hWF.2 e (List.mem_cons_self e rest)
      have he1 : e.1 = p := by rw [← he]
      have he2 : e.2 = l := by rw [← he]
      have hno : ∀ x ∈ rest, x.2.port ≠ p := by
        intro x hx hc
        have hx1 : x.2.port = x.1 := (Table.WF_tail hWF).2 x hx
        have : x.1 ∈ Table.keys rest := List.mem_map.mpr ⟨x, hx, rfl⟩
        rw [hx1] at hc
        exact hkeys.1 (by rw [he1]; exact hc ▸ this)
      rw [List.foldl_cons,
        getVal_foldl_insert_of_not_key p rest hno (Table.insert acc e.2.port e.2)]
      rw [hport, he1, he2]
      exact Table.getVal_insert_self acc p l
    · exact ih (Table.WF_tail hWF) hrest (Table.insert acc e.2.port e.2)

theorem loadTable_getVal (db : Table) (hWF : Table.WF db) {p : Nat} {l : Lease}
    (h : (p, l) ∈ db) : Table.getVal (loadTable db) p = some l :=
  getVal_foldl_insert_of_mem db hWF h []

theorem scanPorts_some_spec (leases : Table) :
    ∀ fuel p q : Nat, scanPorts leases p fuel = some q →
      p ≤ q ∧ q < p + fuel ∧ Table.containsKey leases q = false ∧
        ∀ r, p ≤ r → r < q → Table.containsKey leases r = true := by
  intro fuel
  induction fuel with
  | zero => intro p q h; cases h
  | succ f ih =>
    intro p q h
    cases hc : Table.containsKey leases p with
    | true =>
      have h' : scanPorts leases (p + 1) f = some q := by
        rw [← h]
        simp [scanPorts, hc]
      obtain ⟨h1, h2, h3, h4⟩ := ih (p + 1) q h'
      refine ⟨by omega, by omega, h3, ?_⟩
      intro r hr1 hr2
      rcases Nat.eq_or_lt_of_le hr1 with rfl | hlt
      · exact hc
      · exact h4 r (by omega) hr2
    | false =>
      have h' : some p = some q := by
        rw [← h]
        simp [scanPorts, hc]
      have hq : p = q := Option.some_injective _ h'
      subst hq
      exact ⟨le_refl p, by omega, hc, fun r hr1 hr2 => absurd hr2 (by omega)⟩

theorem scanPorts_none_iff (leases : Table) :
    ∀ fuel p : Nat, scanPorts leases p fuel = none ↔
      ∀ r, p ≤ r → r < p + fuel → Table.containsKey leases r = true := by
  intro fuel
  induction fuel with
  | zero =>
    intro p
    constructor
    · intro _ r h1 h2
      exact absurd h2 (by omega)
    · intro _
      rfl
  | succ f ih =>
    intro p
    cases hc : Table.containsKey leases p with
    | true =>
      rw [show scanPorts leases p (f + 1) = scanPorts leases (p + 1) f by
        simp [scanPorts, hc]]
      rw [ih (p + 1)]
      constructor
      · intro h r h1 h2
        rcases Nat.eq_or_lt_of_le h1 with rfl | hlt
        · exact hc
        · exact h r (by omega) (by omega)
      · intro h r h1 h2
        exact h r (by omega) (by omega)
    | false =>
      rw [show scanPorts leases p (f + 1) = some p by simp [scanPorts, hc]]
      constructor
      · intro h
        cases h
      · intro h
        have hp := h p (le_refl p) (by omega)
        rw [hc] at hp
        cases hp

theorem findFreePort_some_spec (leases : Table) (mn mx q : Nat)
    (h : findFreePort leases mn mx = some q) :
    mn ≤ q ∧ q ≤ mx ∧ Table.containsKey leases q = false ∧
      ∀ r, mn ≤ r → r < q → Table.containsKey leases r = true := by
  obtain ⟨h1, h2, h3, h4⟩ := scanPorts_some_spec leases (mx + 1 - mn) mn q h
  exact ⟨h1, by omega, h3, h4⟩

theorem findFreePort_none_iff (leases : Table) (mn mx : Nat) :
    findFreePort leases mn mx = none ↔
      ∀ r, mn ≤ r → r ≤ mx → Table.containsKey leases r = true := by
  rw [findFreePort, scanPorts_none_iff]
  constructor
  · intro h r h1 h2
    exact h r h1 (by omega)
  · intro h r h1 h2
    exact h r h1 (by omega)

theorem findFreePort_isSome_of_free (leases : Table) (mn mx q : Nat)
    (h1 : mn ≤ q) (h2 : q ≤ mx) (hfree : Table.containsKey leases q = false) :
    ∃ r, findFreePort leases mn mx = some r := by
  cases hf : findFreePort leases mn mx with
  | none =>
    have hq := (findFreePort_none_iff leases mn mx).mp hf q h1 h2
    rw [hfree] at hq
    cases hq
  | some r => exact ⟨r, rfl⟩

/-! ### Claim C3: allocate atomicity on persistence failure -/

/-- C3: when a port is free but the store write fails, `allocate_port`
fails the whole call with the persistence error (HTTP 500) and leaves both
the in-memory table and the store exactly as they were — no partial
allocation is visible; and when the store write succeeds, the store
receives the new lease together with the table (the memory insert happens
only after a successful persist). -/
theorem c3_allocate_persist_failure (st : AppState) (payload : AllocateRequest)
    (now : Int) (port : Nat)
    (h : findFreePort st.leases st.min_port st.max_port = some port) :
    (allocate_port st payload now false).1 =
        Except.error Status.internalServerError ∧
      (allocate_port st payload now false).2 = st ∧
      ∀ resp st2, allocate_port st payload now true = (Except.ok resp, st2) →
        st2.db = save_lease st.db resp.lease ∧
        st2.leases = Table.insert st.leases resp.port resp.lease := by
  refine ⟨by simp [allocate_port, h], by simp [allocate_port, h], ?_⟩
  intro resp st2 hok
  simp only [allocate_port, h] at hok
  rw [if_pos trivial, Prod.mk.injEq] at hok
  obtain ⟨hA, hB⟩ := hok
  injection hA with hA
  constructor
  · rw [← hB, ← hA]
  · rw [← hB, ← hA]

/-- C3 witness. -/
theorem c3_allocate_persist_failure_witness :
    (allocate_port emptyState ⟨"svc", none, none⟩ 100 false).1 =
        Except.error Status.internalServerError ∧
      (allocate_port emptyState ⟨"svc", none, none⟩ 100 false).2 = emptyState ∧
      ∀ resp st2,
        allocate_port emptyState ⟨"svc", none, none⟩ 100 true =
          (Except.ok resp, st2) →
        st2.db = save_lease emptyState.db resp.lease ∧
        st2.leases = Table.insert emptyState.leases resp.port resp.lease :=
  c3_allocate_persist_failure emptyState ⟨"svc", none, none⟩ 100 8000 (by decide)

/-! ### Claim C9: TTL validity and defaulting (corrected) -/

/-- C9 counterexample: `allocate_port` performs no positivity validation on
the caller-supplied TTL; a request with `ttl_seconds = some 0` creates a
lease whose `ttl_seconds` is `0`, which is not a positive integer. -/
theorem c9_ttl_zero_counterexample :
    (allocate_port emptyState ⟨"svc", some 0, none⟩ 100 true).1 =
        Except.ok ⟨8000, ⟨8000, "svc", 100, 100, 0, []⟩⟩ ∧
      ¬ 0 < (0 : Nat) :=
  ⟨rfl, by decide⟩

/-- C9 amended: for every lease created by `allocate_port`, `ttl_seconds`
equals the caller's override when one is supplied (even `0` — there is no
positivity validation), and equals the configured default TTL of 300
(a positive integer) exactly when the override is omitted. -/
theorem c9_ttl_defaulting (st : AppState) (payload : AllocateRequest)
    (now : Int) (saveOk : Bool) (resp : AllocateResponse) (st2 : AppState)
    (h : allocate_port st payload now saveOk = (Except.ok resp, st2)) :
    resp.lease.ttl_seconds = payload.ttl_seconds.getD DEFAULT_TTL ∧
      (payload.ttl_seconds = none →
        resp.lease.ttl_seconds = DEFAULT_TTL ∧ 0 < resp.lease.ttl_seconds) := by
  cases hf : findFreePort st.leases st.min_port st.max_port with
  | none => simp [allocate_port, hf] at h
  | some port =>
    cases saveOk with
    | false => simp [allocate_port, hf] at h
    | true =>
      simp only [allocate_port, hf] at h
      rw [if_pos trivial, Prod.mk.injEq] at h
      obtain ⟨hA, hB⟩ := h
      injection hA with hA
      rw [← hA]
      refine ⟨rfl, ?_⟩
      intro hnone
      rw [hnone]
      exact ⟨rfl, by show 0 < DEFAULT_TTL; decide⟩

/-- C9 witness. -/
theorem c9_ttl_defaulting_witness :
    (⟨8000, ⟨8000, "svc", 50, 50, 300, []⟩⟩ :
        AllocateResponse).lease.ttl_seconds =
        (Option.none).getD DEFAULT_TTL ∧
      ((Option.none : Option Nat) = none →
        (⟨8000, ⟨8000, "svc", 50, 50, 300, []⟩⟩ :
          AllocateResponse).lease.ttl_seconds = DEFAULT_TTL ∧
        0 < (⟨8000, ⟨8000, "svc", 50, 50, 300, []⟩⟩ :
          AllocateResponse).lease.ttl_seconds) :=
  c9_ttl_defaulting emptyState ⟨"svc", none, none⟩ 50 true
    ⟨8000, ⟨8000, "svc", 50, 50, 300, []⟩⟩
    ⟨[(8000, ⟨8000, "svc", 50, 50, 300, []⟩)],
      [(8000, ⟨8000, "svc", 50, 50, 300, []⟩)], 8000, 8002⟩
    rfl

/-! ### Claim C6: release semantics -/

/-- C6: releasing a present port removes it from the table and deletes it
from the store, returning Ok, and the port is immediately free again (it is
absent from the table, and a subsequent allocation over a range containing
it finds a free port no higher than it); releasing an absent port returns
NotFound and leaves the table and the store untouched. -/
theorem c6_release_semantics (st : AppState) (port : Nat) :
    (Table.containsKey st.leases port = true →
      release_port st port =
          (Except.ok Status.ok,
            { st with
              leases := Table.remove st.leases port
              db := Table.remove st.db port }) ∧
        Table.containsKey (release_port st port).2.leases port = false ∧
        (st.min_port ≤ port → port ≤ st.max_port →
          ∃ r, findFreePort (release_port st port).2.leases st.min_port
              st.max_port = some r ∧ r ≤ port)) ∧
    (Table.containsKey st.leases port = false →
      release_port st port = (Except.error Status.notFound, st)) := by
  constructor
  · intro h
    have e1 : release_port st port =
        (Except.ok Status.ok,
          { st with
            leases := Table.remove st.leases port
            db := Table.remove st.db port }) := by
      simp [release_port, h, delete_lease]
    refine ⟨e1, ?_, ?_⟩
    · rw [e1]
      exact Table.containsKey_remove_self st.leases port
    · intro h1 h2
      rw [e1]
      have hfree := Table.containsKey_remove_self st.leases port
      obtain ⟨r, hr⟩ := findFreePort_isSome_of_free (Table.remove st.leases port)
        st.min_port st.max_port port h1 h2 hfree
      refine ⟨r, hr, ?_⟩
      obtain ⟨s1, s2, s3, s4⟩ := findFreePort_some_spec (Table.remove st.leases port)
        st.min_port st.max_port r hr
      by_contra hgt
      push_neg at hgt
      have hocc := s4 port h1 hgt
      rw [hfree] at hocc
      cases hocc
  · intro h
    simp [release_port, h]

/-- C6 witness. -/
theorem c6_release_semantics_witness :
    ((Table.containsKey stAB.leases 8000 = true →
        release_port stAB 8000 =
            (Except.ok Status.ok,
              { stAB with
                leases := Table.remove stAB.leases 8000
                db := Table.remove stAB.db 8000 }) ∧
          Table.containsKey (release_port stAB 8000).2.leases 8000 = false ∧
          (stAB.min_port ≤ 8000 → 8000 ≤ stAB.max_port →
            ∃ r, findFreePort (release_port stAB 8000).2.leases stAB.min_port
                stAB.max_port = some r ∧ r ≤ 8000)) ∧
      (Table.containsKey stAB.leases 8000 = false →
        release_port stAB 8000 = (Except.error Status.notFound, stAB))) ∧
    ((Table.containsKey emptyState.leases 8000 = true →
        release_port emptyState 8000 =
            (Except.ok Status.ok,
              { emptyState with
                leases := Table.remove emptyState.leases 8000
                db := Table.remove emptyState.db 8000 }) ∧
          Table.containsKey (release_port emptyState 8000).2.leases 8000 = false ∧
          (emptyState.min_port ≤ 8000 → 8000 ≤ emptyState.max_port →
            ∃ r, findFreePort (release_port emptyState 8000).2.leases
                emptyState.min_port emptyState.max_port = some r ∧ r ≤ 8000)) ∧
      (Table.containsKey emptyState.leases 8000 = false →
        release_port emptyState 8000 =
          (Except.error Status.notFound, emptyState))) :=
  ⟨c6_release_semantics stAB 8000, c6_release_semantics emptyState 8000⟩

/-! ### Claim C7: renew frame condition -/

/-- C7: renewing a present port returns Ok and replaces that lease by the
same record with only `last_heartbeat` set to the current time — `port`,
`serviceName`, `allocatedAt`, `ttlSeconds` and `tags` are untouched — while
every other table entry and every other store row keeps its old value, and
the store row at the port (when present) also only gets the new heartbeat;
renewing an absent port returns NotFound and leaves the whole state,
store included, unchanged. -/
theorem c7_renew_frame (st : AppState) (port : Nat) (now : Int) :
    (∀ l, Table.getVal st.leases port = some l →
      (heartbeat st port now).1 = Except.ok Status.ok ∧
        Table.getVal (heartbeat st port now).2.leases port =
          some { l with last_heartbeat := now } ∧
        ({ l with last_heartbeat := now }).port = l.port ∧
        ({ l with last_heartbeat := now }).service_name = l.service_name ∧
        ({ l with last_heartbeat := now }).allocated_at = l.allocated_at ∧
        ({ l with last_heartbeat := now }).ttl_seconds = l.ttl_seconds ∧
        ({ l with last_heartbeat := now }).tags = l.tags ∧
        (∀ q, q ≠ port →
          Table.getVal (heartbeat st port now).2.leases q =
            Table.getVal st.leases q) ∧
        (∀ q, q ≠ port →
          Table.getVal (heartbeat st port now).2.db q = Table.getVal st.db q) ∧
        (∀ m, Table.getVal st.db port = some m →
          Table.getVal (heartbeat st port now).2.db port =
            some { m with last_heartbeat := now })) ∧
    (Table.getVal st.leases port = none →
      heartbeat st port now = (Except.error Status.notFound, st)) := by
  constructor
  · intro l h
    have e1 : heartbeat st port now =
        (Except.ok Status.ok,
          { st with
            leases := Table.setHB st.leases port now
            db := Table.setHB st.db port now }) := by
      simp [heartbeat, h, update_heartbeat]
    rw [e1]
    refine ⟨rfl, ?_, rfl, rfl, rfl, rfl, rfl, ?_, ?_, ?_⟩
    · exact Table.getVal_setHB_self st.leases port now l h
    · intro q hq
      exact Table.getVal_setHB_ne st.leases port now q hq
    · intro q hq
      exact Table.getVal_setHB_ne st.db port now q hq
    · intro m hm
      exact Table.getVal_setHB_self st.db port now m hm
  · intro h
    simp [heartbeat, h]

/-- C7 witness. -/
theorem c7_renew_frame_witness :
    ((∀ l, Table.getVal stAB.leases 8000 = some l →
        (heartbeat stAB 8000 950).1 = Except.ok Status.ok ∧
          Table.getVal (heartbeat stAB 8000 950).2.leases 8000 =
            some { l with last_heartbeat := 950 } ∧
          ({ l with last_heartbeat := 950 }).port = l.port ∧
          ({ l with last_heartbeat := 950 }).service_name = l.service_name ∧
          ({ l with last_heartbeat := 950 }).allocated_at = l.allocated_at ∧
          ({ l with last_heartbeat := 950 }).ttl_seconds = l.ttl_seconds ∧
          ({ l with last_heartbeat := 950 }).tags = l.tags ∧
          (∀ q, q ≠ 8000 →
            Table.getVal (heartbeat stAB 8000 950).2.leases q =
              Table.getVal stAB.leases q) ∧
          (∀ q, q ≠ 8000 →
            Table.getVal (heartbeat stAB 8000 950).2.db q =
              Table.getVal stAB.db q) ∧
          (∀ m, Table.getVal stAB.db 8000 = some m →
            Table.getVal (heartbeat stAB 8000 950).2.db 8000 =
              some { m with last_heartbeat := 950 })) ∧
      (Table.getVal stAB.leases 8000 = none →
        heartbeat stAB 8000 950 = (Except.error Status.notFound, stAB))) ∧
    ((∀ l, Table.getVal emptyState.leases 9100 = some l →
        (heartbeat emptyState 9100 950).1 = Except.ok Status.ok ∧
          Table.getVal (heartbeat emptyState 9100 950).2.leases 9100 =
            some { l with last_heartbeat := 950 } ∧
          ({ l with last_heartbeat := 950 }).port = l.port ∧
          ({ l with last_heartbeat := 950 }).service_name = l.service_name ∧
          ({ l with last_heartbeat := 950 }).allocated_at = l.allocated_at ∧
          ({ l with last_heartbeat := 950 }).ttl_seconds = l.ttl_seconds ∧
          ({ l with last_heartbeat := 950 }).tags = l.tags ∧
          (∀ q, q ≠ 9100 →
            Table.getVal (heartbeat emptyState 9100 950).2.leases q =
              Table.getVal emptyState.leases q) ∧
          (∀ q, q ≠ 9100 →
            Table.getVal (heartbeat emptyState 9100 950).2.db q =
              Table.getVal emptyState.db q) ∧
          (∀ m, Table.getVal emptyState.db 9100 = some m →
            Table.getVal (heartbeat emptyState 9100 950).2.db 9100 =
              some { m with last_heartbeat := 950 })) ∧
      (Table.getVal emptyState.leases 9100 = none →
        heartbeat emptyState 9100 950 = (Except.error Status.notFound, emptyState))) :=
  ⟨c7_renew_frame stAB 8000 950, c7_renew_frame emptyState 9100 950⟩

/-! ### Claim C2: lowest-free-port allocation -/

/-- C2: every successful allocation returns a port inside the configured
range `[min_port, max_port]` that was free, with every lower in-range port
occupied (the scan is ascending and takes the first free key); in
particular, when ports `min_port..k` are all occupied and `k + 1` is a free
port of the range, the next allocation returns exactly `k + 1`. -/
theorem c2_lowest_free_port (st : AppState) (payload : AllocateRequest)
    (now : Int) (saveOk : Bool) :
    (∀ resp st2, allocate_port st payload now saveOk = (Except.ok resp, st2) →
      st.min_port ≤ resp.port ∧ resp.port ≤ st.max_port ∧
        Table.containsKey st.leases resp.port = false ∧
        ∀ r, st.min_port ≤ r → r < resp.port →
          Table.containsKey st.leases r = true) ∧
    (∀ k, (∀ r, st.min_port ≤ r → r ≤ k → Table.containsKey st.leases r = true) →
      st.min_port ≤ k + 1 → k + 1 ≤ st.max_port →
      Table.containsKey st.leases (k + 1) = false →
      ∃ resp, (allocate_port st payload now true).1 = Except.ok resp ∧
        resp.port = k + 1) := by
  constructor
  · intro resp st2 hok
    cases hf : findFreePort st.leases st.min_port st.max_port with
    | none => simp [allocate_port, hf] at hok
    | some port =>
      cases saveOk with
      | false => simp [allocate_port, hf] at hok
      | true =>
        simp only [allocate_port, hf] at hok
        rw [if_pos trivial, Prod.mk.injEq] at hok
        obtain ⟨hA, _⟩ := hok
        injection hA with hA
        have hport : resp.port = port := by rw [← hA]
        rw [hport]
        obtain ⟨s1, s2, s3, s4⟩ :=
          findFreePort_some_spec st.leases st.min_port st.max_port port hf
        exact ⟨s1, s2, s3, s4⟩
  · intro k hocc h1 h2 hfree
    obtain ⟨r, hr⟩ := findFreePort_isSome_of_free st.leases st.min_port
      st.max_port (k + 1) h1 h2 hfree
    obtain ⟨s1, s2, s3, s4⟩ :=
      findFreePort_some_spec st.leases st.min_port st.max_port r hr
    have hrk : r = k + 1 := by
      rcases Nat.lt_trichotomy r (k + 1) with hlt | heq | hgt
      · have hcon := hocc r s1 (by omega)
        rw [s3] at hcon
        cases hcon
      · exact heq
      · have hcon := s4 (k + 1) h1 hgt
        rw [hfree] at hcon
        cases hcon
    subst hrk
    refine ⟨⟨k + 1,
      ⟨k + 1, payload.service_name, now, now,
        payload.ttl_seconds.getD DEFAULT_TTL, payload.tags.getD []⟩⟩, ?_, rfl⟩
    simp [allocate_port, hr]

/-- C2 witness. -/
theorem c2_lowest_free_port_witness :
    ((∀ resp st2,
        allocate_port stAB ⟨"svc", none, none⟩ 100 true = (Except.ok resp, st2) →
        stAB.min_port ≤ resp.port ∧ resp.port ≤ stAB.max_port ∧
          Table.containsKey stAB.leases resp.port = false ∧
          ∀ r, stAB.min_port ≤ r → r < resp.port →
            Table.containsKey stAB.leases r = true) ∧
      (∀ k, (∀ r, stAB.min_port ≤ r → r ≤ k →
          Table.containsKey stAB.leases r = true) →
        stAB.min_port ≤ k + 1 → k + 1 ≤ stAB.max_port →
        Table.containsKey stAB.leases (k + 1) = false →
        ∃ resp, (allocate_port stAB ⟨"svc", none, none⟩ 100 true).1 =
            Except.ok resp ∧ resp.port = k + 1)) ∧
    (∃ resp, (allocate_port stAB ⟨"svc", none, none⟩ 100 true).1 =
        Except.ok resp ∧ resp.port = 8001 + 1) :=
  ⟨c2_lowest_free_port stAB ⟨"svc", none, none⟩ 100 true,
    (c2_lowest_free_port stAB ⟨"svc", none, none⟩ 100 true).2 8001
      (by decide) (by decide) (by decide) (by decide)⟩

/-! ### Claim C1: port exclusivity -/

theorem values_ports_eq_keys (t : Table) (h : ∀ e ∈ t, e.2.port = e.1) :
    (Table.values t).map Lease.port = Table.keys t := by
  show List.map Lease.port (List.map (fun e => e.2) t) = List.map (fun e => e.1) t
  rw [List.map_map]
  exact List.map_congr_left (fun e he => h e he)

theorem step_WF (st : AppState) (op : Op) (h : Table.WF st.leases) :
    Table.WF (step st op).leases := by
  cases op with
  | alloc payload now saveOk =>
    cases hf : findFreePort st.leases st.min_port st.max_port with
    | none =>
      have e1 : (step st (Op.alloc payload now saveOk)).leases = st.leases := by
        simp [step, allocate_port, hf]
      rw [e1]
      exact h
    | some port =>
      cases saveOk with
      | false =>
        have e1 : (step st (Op.alloc payload now false)).leases = st.leases := by
          simp [step, allocate_port, hf]
        rw [e1]
        exact h
      | true =>
        have e1 : (step st (Op.alloc payload now true)).leases =
            Table.insert st.leases port
              ⟨port, payload.service_name, now, now,
                payload.ttl_seconds.getD DEFAULT_TTL, payload.tags.getD []⟩ := by
          simp [step, allocate_port, hf]
        rw [e1]
        exact Table.WF_insert st.leases port _ h rfl
  | release port =>
    by_cases hc : Table.containsKey st.leases port = true
    · have e1 : (step st (Op.release port)).leases = Table.remove st.leases port := by
        simp [step, release_port, hc]
      rw [e1]
      exact Table.WF_remove st.leases port h
    · have e1 : (step st (Op.release port)).leases = st.leases := by
        simp [step, release_port, hc]
      rw [e1]
      exact h
  | renew port now =>
    cases hg : Table.getVal st.leases port with
    | none =>
      have e1 : (step st (Op.renew port now)).leases = st.leases := by
        simp [step, heartbeat, hg]
      rw [e1]
      exact h
    | some l =>
      have e1 : (step st (Op.renew port now)).leases =
          Table.setHB st.leases port now := by
        simp [step, heartbeat, hg]
      rw [e1]
      exact Table.WF_setHB st.leases port now h
  | sweepAt now =>
    exact Table.WF_foldl_remove _ st.leases h

theorem run_WF : ∀ (ops : List Op) (st : AppState), Table.WF st.leases →
    Table.WF (run st ops).leases := by
  intro ops
  induction ops with
  | nil => exact fun st h => h
  | cons op rest ih => exact fun st h => ih (step st op) (step_WF st op h)

/-- C1: starting from any state whose table is well-formed (in particular
the empty state), any sequence of allocate / release / renew / sweep
operations preserves well-formedness: the table never holds two leases with
the same port, the snapshot returned by `list_leases` has pairwise distinct
ports, and the port scan of `allocate_port` never selects a port already
present as a key. -/
theorem c1_port_exclusivity (st : AppState) (ops : List Op)
    (h : Table.WF st.leases) :
    Table.WF (run st ops).leases ∧
      ((list_leases (run st ops)).map Lease.port).Nodup ∧
      ∀ p, findFreePort (run st ops).leases (run st ops).min_port
          (run st ops).max_port = some p →
        Table.containsKey (run st ops).leases p = false := by
  have hWF := run_WF ops st h
  refine ⟨hWF, ?_, ?_⟩
  · rw [show list_leases (run st ops) = Table.values (run st ops).leases from rfl,
      values_ports_eq_keys (run st ops).leases hWF.2]
    exact hWF.1
  · intro p hp
    exact (findFreePort_some_spec (run st ops).leases (run st ops).min_port
      (run st ops).max_port p hp).2.2.1

/-- C1 witness. -/
theorem c1_port_exclusivity_witness :
    Table.WF (run emptyState
        [Op.alloc ⟨"svc", none, none⟩ 5 true,
         Op.alloc ⟨"svc", none, none⟩ 6 true,
         Op.release 8000,
         Op.renew 8001 7,
         Op.sweepAt 8]).leases ∧
      ((list_leases (run emptyState
          [Op.alloc ⟨"svc", none, none⟩ 5 true,
           Op.alloc ⟨"svc", none, none⟩ 6 true,
           Op.release 8000,
           Op.renew 8001 7,
           Op.sweepAt 8])).map Lease.port).Nodup ∧
      ∀ p, findFreePort (run emptyState
            [Op.alloc ⟨"svc", none, none⟩ 5 true,
             Op.alloc ⟨"svc", none, none⟩ 6 true,
             Op.release 8000,
             Op.renew 8001 7,
             Op.sweepAt 8]).leases
          (run emptyState
            [Op.alloc ⟨"svc", none, none⟩ 5 true,
             Op.alloc ⟨"svc", none, none⟩ 6 true,
             Op.release 8000,
             Op.renew 8001 7,
             Op.sweepAt 8]).min_port
          (run emptyState
            [Op.alloc ⟨"svc", none, none⟩ 5 true,
             Op.alloc ⟨"svc", none, none⟩ 6 true,
             Op.release 8000,
             Op.renew 8001 7,
             Op.sweepAt 8]).max_port = some p →
        Table.containsKey (run emptyState
            [Op.alloc ⟨"svc", none, none⟩ 5 true,
             Op.alloc ⟨"svc", none, none⟩ 6 true,
             Op.release 8000,
             Op.renew 8001 7,
             Op.sweepAt 8]).leases p = false :=
  c1_port_exclusivity emptyState
    [Op.alloc ⟨"svc", none, none⟩ 5 true,
     Op.alloc ⟨"svc", none, none⟩ 6 true,
     Op.release 8000,
     Op.renew 8001 7,
     Op.sweepAt 8] (by decide)

/-! ### Claim C8: expiry rule, renewal extends life, sweep eviction -/

theorem sweep_leases_eq (st : AppState) (now : Int) :
    (sweep st now).leases =
      ((st.leases.filter (fun e => Lease.expired e.2 now)).map
        (fun e => e.1)).foldl (fun t p => Table.remove t p) st.leases := rfl

theorem sweep_db_eq (st : AppState) (now : Int) :
    (sweep st now).db =
      ((st.leases.filter (fun e => Lease.expired e.2 now)).map
        (fun e => e.1)).foldl (fun t p => Table.remove t p) st.db := rfl

/-- C8: a lease is expired exactly when `now > lastHeartbeat + ttlSeconds`;
the sweeper removes a lease from the table and the store precisely when its
lease satisfies that rule (leaving fresh leases and their store rows
untouched); the startup purge `delete_expired` selects rows by the same
rule; and a lease renewed at time `t` has its heartbeat set to `t`, so it
is not expired at any instant `< t + ttlSeconds`, no matter how old its
`allocatedAt` is (the rule never reads `allocatedAt`). -/
theorem c8_expiry_renewal_sweep (st : AppState) (db : Table) (now t2 : Int)
    (port : Nat) :
    (∀ l : Lease, Lease.expired l now = true ↔
        now > l.last_heartbeat + (l.ttl_seconds : Int)) ∧
      (∀ l, Table.WF st.leases → Table.getVal st.leases port = some l →
        (Lease.expired l now = true →
          Table.containsKey (sweep st now).leases port = false ∧
            Table.containsKey (sweep st now).db port = false) ∧
          (Lease.expired l now = false →
            Table.getVal (sweep st now).leases port = some l ∧
              Table.getVal (sweep st now).db port = Table.getVal st.db port)) ∧
      (port ∈ (delete_expired db now).1 ↔
        ∃ l, (port, l) ∈ db ∧ Lease.expired l now = true) ∧
      (∀ l, Table.getVal st.leases port = some l →
        Table.getVal (heartbeat st port t2).2.leases port =
            some { l with last_heartbeat := t2 } ∧
          ∀ now2 : Int, now2 < t2 + (l.ttl_seconds : Int) →
            Lease.expired { l with last_heartbeat := t2 } now2 = false) := by
  refine ⟨?_, ?_, ?_, ?_⟩
  · intro l
    simp [Lease.expired, Lease.expiresAt]
  · intro l hWF h
    have hmem : (port, l) ∈ st.leases := Table.mem_of_getVal h
    constructor
    · intro hexp
      have hin : port ∈ (st.leases.filter
          (fun e => Lease.expired e.2 now)).map (fun e => e.1) :=
        (mem_expired_map st.leases now port).mpr ⟨l, hmem, hexp⟩
      rw [sweep_leases_eq, sweep_db_eq]
      exact ⟨Table.containsKey_foldl_remove_of_mem _ port hin st.leases,
        Table.containsKey_foldl_remove_of_mem _ port hin st.db⟩
    · intro hfresh
      have hnotin : port ∉ (st.leases.filter
          (fun e => Lease.expired e.2 now)).map (fun e => e.1) := by
        intro hin
        obtain ⟨l2, hmem2, hexp2⟩ := (mem_expired_map st.leases now port).mp hin
        have : l2 = l := Table.eq_of_mem_of_nodup hWF.1 hmem2 hmem
        rw [this, hfresh] at hexp2
        cases hexp2
      rw [sweep_leases_eq, sweep_db_eq]
      rw [Table.getVal_foldl_remove_of_not_mem _ port hnotin st.leases,
        Table.getVal_foldl_remove_of_not_mem _ port hnotin st.db]
      exact ⟨h, rfl⟩
  · exact mem_expired_map db now port
  · intro l h
    have e1 : (heartbeat st port t2).2.leases = Table.setHB st.leases port t2 := by
      simp [heartbeat, h]
    rw [e1]
    refine ⟨Table.getVal_setHB_self st.leases port t2 l h, ?_⟩
    intro now2 hlt
    simp only [Lease.expired, Lease.expiresAt]
    rw [decide_eq_false_iff_not]
    show ¬ now2 > t2 + (l.ttl_seconds : Int)
    omega

/-- C8 witness. -/
theorem c8_expiry_renewal_sweep_witness :
    (Table.containsKey (sweep stAB 1000).leases 8001 = false ∧
        Table.containsKey (sweep stAB 1000).db 8001 = false) ∧
      (Table.getVal (sweep stAB 1000).leases 8000 = some leaseA ∧
        Table.getVal (sweep stAB 1000).db 8000 = Table.getVal stAB.db 8000) ∧
      (8001 ∈ (delete_expired dbAB 1000).1 ↔
        ∃ l, (8001, l) ∈ dbAB ∧ Lease.expired l 1000 = true) ∧
      (Table.getVal (heartbeat stAB 8000 950).2.leases 8000 =
          some { leaseA with last_heartbeat := 950 } ∧
        ∀ now2 : Int, now2 < 950 + (leaseA.ttl_seconds : Int) →
          Lease.expired { leaseA with last_heartbeat := 950 } now2 = false) :=
  ⟨((c8_expiry_renewal_sweep stAB dbAB 1000 950 8001).2.1 leaseB (by decide)
      (by decide)).1 (by decide),
    ((c8_expiry_renewal_sweep stAB dbAB 1000 950 8000).2.1 leaseA (by decide)
      (by decide)).2 (by decide),
    (c8_expiry_renewal_sweep stAB dbAB 1000 950 8001).2.2.1,
    (c8_expiry_renewal_sweep stAB dbAB 1000 950 8000).2.2.2 leaseA (by decide)⟩

/-! ### Claim C4: startup reconciliation (corrected) -/

/-- C4 counterexample: starting the process over a store holding the fresh
`leaseA` and the already-expired `leaseB`, the startup sequence of main.rs
purges `leaseB`'s row from the store but leaves port 8001 in the freshly
loaded in-memory table — the expired ports returned by `delete_expired` are
only counted for a log line and are never removed from the map, so `leaseB`
is *not* absent from the table, contradicting the claim. -/
theorem c4_startup_counterexample :
    Lease.expired leaseB 1000 = true ∧
      Table.containsKey (startup dbAB 1000 8000 9000).db 8001 = false ∧
      Table.containsKey (startup dbAB 1000 8000 9000).leases 8001 = true :=
  ⟨by decide, by decide, by decide⟩

/-- C4 amended: on process start all leases are loaded from the store into
the table and the store's `delete_expired(now)` purges the rows that
expired during downtime, but the purged ports are NOT removed from the
freshly loaded in-memory table (they linger there until the first sweep
cycle); hence after restart a fresh lease A is present in both the table
and the store, while an already-expired lease B is absent from the store
but still present in the in-memory table. -/
theorem c4_startup_reconciliation (db : Table) (now : Int) (mn mx p : Nat)
    (l : Lease) (hWF : Table.WF db) (hmem : (p, l) ∈ db) :
    (Lease.expired l now = false →
      Table.getVal (startup db now mn mx).leases p = some l ∧
        Table.getVal (startup db now mn mx).db p = some l) ∧
      (Lease.expired l now = true →
        Table.containsKey (startup db now mn mx).db p = false ∧
          Table.getVal (startup db now mn mx).leases p = some l) := by
  have hload : Table.getVal (startup db now mn mx).leases p = some l :=
    loadTable_getVal db hWF hmem
  have hdb : (startup db now mn mx).db =
      ((db.filter (fun e => Lease.expired e.2 now)).map
        (fun e => e.1)).foldl (fun t q => Table.remove t q) db := rfl
  constructor
  · intro hfresh
    refine ⟨hload, ?_⟩
    have hnotin : p ∉ (db.filter (fun e => Lease.expired e.2 now)).map
        (fun e => e.1) := by
      intro hin
      obtain ⟨l2, hmem2, hexp2⟩ := (mem_expired_map db now p).mp hin
      have : l2 = l := Table.eq_of_mem_of_nodup hWF.1 hmem2 hmem
      rw [this, hfresh] at hexp2
      cases hexp2
    rw [hdb, Table.getVal_foldl_remove_of_not_mem _ p hnotin db]
    exact Table.getVal_eq_some_of_mem hWF.1 hmem
  · intro hexp
    refine ⟨?_, hload⟩
    have hin : p ∈ (db.filter (fun e => Lease.expired e.2 now)).map
        (fun e => e.1) := (mem_expired_map db now p).mpr ⟨l, hmem, hexp⟩
    rw [hdb]
    exact Table.containsKey_foldl_remove_of_mem _ p hin db

/-- C4 witness. -/
theorem c4_startup_reconciliation_witness :
    ((Lease.expired leaseA 1000 = false →
        Table.getVal (startup dbAB 1000 8000 9000).leases 8000 = some leaseA ∧
          Table.getVal (startup dbAB 1000 8000 9000).db 8000 = some leaseA) ∧
      (Lease.expired leaseA 1000 = true →
        Table.containsKey (startup dbAB 1000 8000 9000).db 8000 = false ∧
          Table.getVal (startup dbAB 1000 8000 9000).leases 8000 =
            some leaseA)) ∧
    ((Lease.expired leaseB 1000 = false →
        Table.getVal (startup dbAB 1000 8000 9000).leases 8001 = some leaseB ∧
          Table.getVal (startup dbAB 1000 8000 9000).db 8001 = some leaseB) ∧
      (Lease.expired leaseB 1000 = true →
        Table.containsKey (startup dbAB 1000 8000 9000).db 8001 = false ∧
          Table.getVal (startup dbAB 1000 8000 9000).leases 8001 =
            some leaseB)) :=
  ⟨c4_startup_reconciliation dbAB 1000 8000 9000 8000 leaseA (by decide)
      (by decide),
    c4_startup_reconciliation dbAB 1000 8000 9000 8001 leaseB (by decide)
      (by decide)⟩

/-! ### Claim C10: lenient load of corrupted store rows -/

/-- C10: `load_leases` never fails the whole load because of one malformed
row: a row whose column reads fail is silently skipped (the load of any row
list containing it equals the load without it), while a row that reads but
whose `last_heartbeat` text does not parse as RFC 3339 is still loaded with
the unparseable timestamp silently replaced by the current time (likewise
for `allocated_at`), so the row is treated as freshly heartbeated and the
startup purge `delete_expired`, which applies the same fallback, does not
purge it. -/
theorem c10_lenient_load (parseTs : String → Option Int)
    (parseTags : String → Option (List String)) (now : Int) (r : RawRow)
    (rows1 rows2 : List RawRow) :
    (parseRow parseTs parseTags now r = none →
      load_leases parseTs parseTags now (rows1 ++ r :: rows2) =
        load_leases parseTs parseTags now (rows1 ++ rows2)) ∧
      ∀ port sn sa sh tv tj,
        r.port = some port → r.service_name = some sn →
        r.allocated_at_str = some sa → r.last_heartbeat_str = some sh →
        r.ttl_i64 = some tv → 0 ≤ tv → r.tags_json = some tj →
        parseTs sh = none →
        (∃ l, parseRow parseTs parseTags now r = some l ∧
          l.last_heartbeat = now ∧
          (parseTs sa = none → l.allocated_at = now) ∧
          Table.getVal (load_leases parseTs parseTags now [r]) port = some l) ∧
        delete_expired_ports parseTs now [r] = [] := by
  constructor
  · intro hnone
    simp [load_leases, List.foldl_append, hnone]
  · intro port sn sa sh tv tj hport hsn hsa hsh htv h0 htj hparse
    have hpr : parseRow parseTs parseTags now r =
        some ⟨port, sn, (parseTs sa).getD now, now, tv.toNat,
          (parseTags tj).getD []⟩ := by
      simp [parseRow, hport, hsn, hsa, hsh, htv, htj, readU64, h0, hparse]
    constructor
    · refine ⟨⟨port, sn, (parseTs sa).getD now, now, tv.toNat,
        (parseTags tj).getD []⟩, hpr, rfl, ?_, ?_⟩
      · intro hpa
        show (parseTs sa).getD now = now
        rw [hpa]
        rfl
      · have hload : load_leases parseTs parseTags now [r] =
            Table.insert [] port
              ⟨port, sn, (parseTs sa).getD now, now, tv.toNat,
                (parseTags tj).getD []⟩ := by
          simp [load_leases, hpr]
        rw [hload]
        exact Table.getVal_insert_self [] port _
    · have hb : (decide (now > now + tv)) = false := by
        rw [decide_eq_false_iff_not]
        omega
      have hexp : rowExpiry parseTs now r = some (port, false) := by
        simp [rowExpiry, hport, hsh, htv, hparse]
        omega
      simp [delete_expired_ports, hexp]

/-- C10 witness. -/
theorem c10_lenient_load_witness :
    (load_leases (fun _ => none) (fun _ => none) 77
        ([] ++ RawRow.mk none none none none none none ::
          [RawRow.mk (some 9000) (some "svc") (some "a") (some "h") (some 30)
            (some "t")]) =
      load_leases (fun _ => none) (fun _ => none) 77
        ([] ++ [RawRow.mk (some 9000) (some "svc") (some "a") (some "h")
          (some 30) (some "t")])) ∧
    ((∃ l, parseRow (fun _ => none) (fun _ => none) 77
          (RawRow.mk (some 9000) (some "svc") (some "a") (some "h") (some 30)
            (some "t")) = some l ∧
        l.last_heartbeat = 77 ∧
        ((fun _ => (none : Option Int)) "a" = none → l.allocated_at = 77) ∧
        Table.getVal (load_leases (fun _ => none) (fun _ => none) 77
          [RawRow.mk (some 9000) (some "svc") (some "a") (some "h") (some 30)
            (some "t")]) 9000 = some l) ∧
      delete_expired_ports (fun _ => none) 77
        [RawRow.mk (some 9000) (some "svc") (some "a") (some "h") (some 30)
          (some "t")] = []) :=
  ⟨(c10_lenient_load (fun _ => none) (fun _ => none) 77
      (RawRow.mk none none none none none none) []
      [RawRow.mk (some 9000) (some "svc") (some "a") (some "h") (some 30)
        (some "t")]).1 (by decide),
    (c10_lenient_load (fun _ => none) (fun _ => none) 77
      (RawRow.mk (some 9000) (some "svc") (some "a") (some "h") (some 30)
        (some "t")) [] []).2 9000 "svc" "a" "h" 30 "t" rfl rfl rfl rfl rfl
      (by decide) rfl rfl⟩

/-! ### Claim C5: exhaustion -/

theorem Table.containsKey_insert (t : Table) (p : Nat) (l : Lease) (q : Nat) :
    Table.containsKey (Table.insert t p l) q =
      ((p == q) || Table.containsKey t q) := by
  by_cases hq : q = p
  · subst hq
    rw [Table.containsKey_insert_self]
    simp
  · rw [Table.containsKey_insert_ne t p l q hq,
      beq_false_of_ne (fun hh => hq hh.symm), Bool.false_or]

theorem length_filter_orb {lst : List Nat} (a : Nat) (p : Nat → Bool) :
    lst.Nodup → a ∈ lst → p a = false →
    (lst.filter (fun q => (a == q) || p q)).length = (lst.filter p).length + 1 := by
  induction lst with
  | nil =>
    intro _ h
    cases h
  | cons b rest ih =>
    intro hnd ha hpa
    have hnd' := List.nodup_cons.mp hnd
    rcases List.mem_cons.mp ha with rfl | ha'
    · have hcong : rest.filter (fun q => (a == q) || p q) = rest.filter p := by
        apply List.filter_congr
        intro q hq
        rw [beq_false_of_ne (fun hc => hnd'.1 (by rw [hc]; exact hq)),
          Bool.false_or]
      simp only [List.filter_cons, beq_self_eq_true, Bool.true_or, if_true, hpa]
      rw [hcong]
      simp
    · have hba : (a == b) = false := beq_false_of_ne (fun hc => hnd'.1 (hc ▸ ha'))
      have hstep := ih hnd'.2 ha' hpa
      cases hpb : p b
      · simp only [List.filter_cons, hba, Bool.false_or, hpb]
        simpa using hstep
      · simp only [List.filter_cons, hba, Bool.false_or, hpb]
        simpa using hstep

theorem occCount_insert (t : Table) (mn mx port : Nat) (l : Lease)
    (h1 : mn ≤ port) (h2 : port ≤ mx)
    (hfree : Table.containsKey t port = false) :
    occCount (Table.insert t port l) mn mx = occCount t mn mx + 1 := by
  unfold occCount
  have hcong : (List.range' mn (mx + 1 - mn)).filter
      (fun q => Table.containsKey (Table.insert t port l) q) =
      (List.range' mn (mx + 1 - mn)).filter
        (fun q => (port == q) || Table.containsKey t q) := by
    apply List.filter_congr
    intro q _
    exact Table.containsKey_insert t port l q
  rw [hcong]
  exact length_filter_orb port (fun q => Table.containsKey t q)
    (List.nodup_range' mn (mx + 1 - mn))
    (List.mem_range'_1.mpr ⟨h1, by omega⟩) hfree

theorem all_occupied_of_occCount_full (t : Table) (mn mx : Nat)
    (h : occCount t mn mx = mx + 1 - mn) :
    ∀ r, mn ≤ r → r ≤ mx → Table.containsKey t r = true := by
  intro r h1 h2
  have hlen : ((List.range' mn (mx + 1 - mn)).filter
      (fun p => Table.containsKey t p)).length =
      (List.range' mn (mx + 1 - mn)).length := by
    rw [List.length_range']
    exact h
  have := List.filter_length_eq_length.mp hlen r
    (List.mem_range'_1.mpr ⟨h1, by omega⟩)
  simpa using this

theorem exists_free_of_not_full (t : Table) (mn mx : Nat)
    (h : occCount t mn mx < mx + 1 - mn) :
    ∃ q, mn ≤ q ∧ q ≤ mx ∧ Table.containsKey t q = false := by
  by_contra hno
  push_neg at hno
  have hall : ∀ a ∈ List.range' mn (mx + 1 - mn),
      Table.containsKey t a = true := by
    intro a ha
    obtain ⟨ha1, ha2⟩ := List.mem_range'_1.mp ha
    cases hcb : Table.containsKey t a with
    | false => exact absurd hcb (hno a ha1 (by omega))
    | true => rfl
  have hlen : ((List.range' mn (mx + 1 - mn)).filter
      (fun p => Table.containsKey t p)).length =
      (List.range' mn (mx + 1 - mn)).length :=
    List.filter_length_eq_length.mpr hall
  unfold occCount at h
  rw [hlen, List.length_range'] at h
  omega

theorem allocate_port_fields (st : AppState) (payload : AllocateRequest)
    (now : Int) (saveOk : Bool) :
    (allocate_port st payload now saveOk).2.min_port = st.min_port ∧
      (allocate_port st payload now saveOk).2.max_port = st.max_port := by
  cases hf : findFreePort st.leases st.min_port st.max_port with
  | none => simp [allocate_port, hf]
  | some port => cases saveOk <;> simp [allocate_port, hf]

theorem allocate_success_occ (st : AppState) (payload : AllocateRequest)
    (now : Int)
    (h : occCount st.leases st.min_port st.max_port <
      st.max_port + 1 - st.min_port) :
    (∃ resp, (allocate_port st payload now true).1 = Except.ok resp) ∧
      occCount (allocate_port st payload now true).2.leases st.min_port
          st.max_port =
        occCount st.leases st.min_port st.max_port + 1 := by
  obtain ⟨q, hq1, hq2, hqf⟩ :=
    exists_free_of_not_full st.leases st.min_port st.max_port h
  obtain ⟨r, hr⟩ := findFreePort_isSome_of_free st.leases st.min_port
    st.max_port q hq1 hq2 hqf
  obtain ⟨s1, s2, s3, _⟩ :=
    findFreePort_some_spec st.leases st.min_port st.max_port r hr
  have e1 : (allocate_port st payload now true).1 =
      Except.ok ⟨r, ⟨r, payload.service_name, now, now,
        payload.ttl_seconds.getD DEFAULT_TTL, payload.tags.getD []⟩⟩ := by
    simp [allocate_port, hr]
  have e2 : (allocate_port st payload now true).2.leases =
      Table.insert st.leases r
        ⟨r, payload.service_name, now, now,
          payload.ttl_seconds.getD DEFAULT_TTL, payload.tags.getD []⟩ := by
    simp [allocate_port, hr]
  refine ⟨⟨_, e1⟩, ?_⟩
  rw [e2]
  exact occCount_insert st.leases st.min_port st.max_port r _ s1 s2 s3

theorem allocRun_occ (now : Int) :
    ∀ (reqs : List AllocateRequest) (st : AppState),
      occCount st.leases st.min_port st.max_port + reqs.length ≤
        st.max_port + 1 - st.min_port →
      (allocRun st reqs now).min_port = st.min_port ∧
        (allocRun st reqs now).max_port = st.max_port ∧
        occCount (allocRun st reqs now).leases st.min_port st.max_port =
          occCount st.leases st.min_port st.max_port + reqs.length := by
  intro reqs
  induction reqs with
  | nil =>
    intro st _
    exact ⟨rfl, rfl, rfl⟩
  | cons payload rest ih =>
    intro st h
    have hlt : occCount st.leases st.min_port st.max_port <
        st.max_port + 1 - st.min_port := by
      rw [List.length_cons] at h
      omega
    obtain ⟨_, hocc⟩ := allocate_success_occ st payload now hlt
    have hf := allocate_port_fields st payload now true
    have hrun : allocRun st (payload :: rest) now =
        allocRun (allocate_port st payload now true).2 rest now := rfl
    rw [hrun]
    have hpre : occCount (allocate_port st payload now true).2.leases
        (allocate_port st payload now true).2.min_port
        (allocate_port st payload now true).2.max_port + rest.length ≤
        (allocate_port st payload now true).2.max_port + 1 -
          (allocate_port st payload now true).2.min_port := by
      rw [hf.1, hf.2, hocc]
      rw [List.length_cons] at h
      omega
    obtain ⟨i1, i2, i3⟩ := ih (allocate_port st payload now true).2 hpre
    rw [hf.1] at i1
    rw [hf.2] at i2
    rw [hf.1, hf.2] at i3
    refine ⟨i1, i2, ?_⟩
    rw [i3, hocc, List.length_cons]
    omega

theorem allocate_unavailable_iff (st : AppState) (payload : AllocateRequest)
    (now : Int) (saveOk : Bool) :
    ((allocate_port st payload now saveOk).1 =
        Except.error Status.serviceUnavailable ↔
      ∀ r, st.min_port ≤ r → r ≤ st.max_port →
        Table.containsKey st.leases r = true) ∧
      ((allocate_port st payload now saveOk).1 =
          Except.error Status.serviceUnavailable →
        (allocate_port st payload now saveOk).2 = st) := by
  have hiff : (allocate_port st payload now saveOk).1 =
      Except.error Status.serviceUnavailable ↔
      findFreePort st.leases st.min_port st.max_port = none := by
    cases hf : findFreePort st.leases st.min_port st.max_port with
    | none => simp [allocate_port, hf]
    | some port => cases saveOk <;> simp [allocate_port, hf]
  constructor
  · exact hiff.trans (findFreePort_none_iff st.leases st.min_port st.max_port)
  · intro h
    have hn := hiff.mp h
    simp [allocate_port, hn]

/-- C5: an allocation reports ServiceUnavailable (the ResourceExhausted
outcome) exactly when every port of `[min_port, max_port]` is occupied, and
in that case the state — table and store — is left unchanged, so no lease
is created; moreover, starting from a state with no in-range port occupied,
`max_port + 1 - min_port` allocations all succeed and fill the range, and
the next allocation returns ServiceUnavailable leaving the state unchanged. -/
theorem c5_exhaustion (st : AppState) (payload : AllocateRequest) (now : Int)
    (saveOk : Bool) :
    ((allocate_port st payload now saveOk).1 =
        Except.error Status.serviceUnavailable ↔
      ∀ r, st.min_port ≤ r → r ≤ st.max_port →
        Table.containsKey st.leases r = true) ∧
      ((allocate_port st payload now saveOk).1 =
          Except.error Status.serviceUnavailable →
        (allocate_port st payload now saveOk).2 = st) ∧
      ∀ reqs : List AllocateRequest,
        occCount st.leases st.min_port st.max_port = 0 →
        reqs.length = st.max_port + 1 - st.min_port →
        (allocate_port (allocRun st reqs now) payload now saveOk).1 =
            Except.error Status.serviceUnavailable ∧
          (allocate_port (allocRun st reqs now) payload now saveOk).2 =
            allocRun st reqs now := by
  refine ⟨(allocate_unavailable_iff st payload now saveOk).1,
    (allocate_unavailable_iff st payload now saveOk).2, ?_⟩
  intro reqs h0 hlen
  obtain ⟨m1, m2, m3⟩ := allocRun_occ now reqs st (by rw [h0]; omega)
  rw [h0] at m3
  have hfull : ∀ r, st.min_port ≤ r → r ≤ st.max_port →
      Table.containsKey (allocRun st reqs now).leases r = true :=
    all_occupied_of_occCount_full (allocRun st reqs now).leases st.min_port
      st.max_port (by rw [m3]; omega)
  rw [← m1, ← m2] at hfull
  have herr := ((allocate_unavailable_iff (allocRun st reqs now) payload now
    saveOk).1).mpr hfull
  exact ⟨herr,
    (allocate_unavailable_iff (allocRun st reqs now) payload now saveOk).2 herr⟩

/-- C5 witness. -/
theorem c5_exhaustion_witness :
    (((allocate_port emptyState ⟨"svc", none, none⟩ 9 true).1 =
          Except.error Status.serviceUnavailable ↔
        ∀ r, emptyState.min_port ≤ r → r ≤ emptyState.max_port →
          Table.containsKey emptyState.leases r = true) ∧
      ((allocate_port emptyState ⟨"svc", none, none⟩ 9 true).1 =
          Except.error Status.serviceUnavailable →
        (allocate_port emptyState ⟨"svc", none, none⟩ 9 true).2 = emptyState) ∧
      ∀ reqs : List AllocateRequest,
        occCount emptyState.leases emptyState.min_port emptyState.max_port = 0 →
        reqs.length = emptyState.max_port + 1 - emptyState.min_port →
        (allocate_port (allocRun emptyState reqs 9) ⟨"svc", none, none⟩ 9
              true).1 = Except.error Status.serviceUnavailable ∧
          (allocate_port (allocRun emptyState reqs 9) ⟨"svc", none, none⟩ 9
              true).2 = allocRun emptyState reqs 9) ∧
    ((allocate_port (allocRun emptyState
          [⟨"s1", none, none⟩, ⟨"s2", none, none⟩, ⟨"s3", none, none⟩] 9)
        ⟨"svc", none, none⟩ 9 true).1 =
        Except.error Status.serviceUnavailable ∧
      (allocate_port (allocRun emptyState
          [⟨"s1", none, none⟩, ⟨"s2", none, none⟩, ⟨"s3", none, none⟩] 9)
        ⟨"svc", none, none⟩ 9 true).2 =
        allocRun emptyState
          [⟨"s1", none, none⟩, ⟨"s2", none, none⟩, ⟨"s3", none, none⟩] 9) :=
  ⟨c5_exhaustion emptyState ⟨"svc", none, none⟩ 9 true,
    (c5_exhaustion emptyState ⟨"svc", none, none⟩ 9 true).2.2
      [⟨"s1", none, none⟩, ⟨"s2", none, none⟩, ⟨"s3", none, none⟩]
      (by decide) (by decide)⟩

end PortManager

